import Mathlib

/-!
Shallow embedding of the mini-lsm-solutions core (SSTable format in
`src/table.rs`, MVCC transaction layer in `src/mvcc/txn.rs`) and proofs of
the specified properties.

Bytes are modelled as `Nat` (values `< 256` in real runs; the codec proofs
take the truncations of the source literally, so no global bound is
assumed). Keys are byte strings modelled as `List Nat` with the
lexicographic order of Rust's slice `Ord` (Mathlib's `List.Lex` order).
`u32`/`u64` arithmetic is `Nat` with explicit `% 2^32` / `% 2^64` at the
points where the source truncates or wraps.
-/

namespace MiniLsm

/-- A key: the raw bytes of a composite key, compared lexicographically
(the `key` module of the repository is not among the given sources; per
the spec a key is the raw byte sequence `user key + version tag`, encoded
and compared as its bytes). -/
abbrev Key := List Nat

/-- Raw bytes. -/
abbrev Bytes := List Nat

/-- `2^64`, the modulus for `u64`/`usize` wrap-around. -/
def U64MOD : Nat := 18446744073709551616

/-- Wrapping `u64`/`usize` subtraction `a - b` (release-mode semantics of
the unchecked subtractions in `SsTable::open` and `read_block`). -/
def u64sub (a b : Nat) : Nat :=
  (a % U64MOD + (U64MOD - b % U64MOD)) % U64MOD

/-! ## BlockMeta codec (`src/table.rs`, `BlockMeta`) -/

/-- `BlockMeta` from `src/table.rs`: block offset plus first/last key. -/
structure BlockMeta where
  offset : Nat
  first_key : Key
  last_key : Key
  deriving Repr, DecidableEq

/-- `buf.put_u32(n)`: append the 4 big-endian bytes of `n` truncated to
`u32` (the source writes `meta.offset as u32`, a truncating cast). -/
def putU32 (n : Nat) : List Nat :=
  [n / 16777216 % 256, n / 65536 % 256, n / 256 % 256, n % 256]

/-- `BlockMeta::encode_block_meta`: for each meta, 4-byte offset,
4-byte first-key length, first-key bytes, 4-byte last-key length,
last-key bytes. -/
def encode_block_meta (block_meta : List BlockMeta) : List Nat :=
  block_meta.flatMap fun meta =>
    putU32 meta.offset ++
    putU32 meta.first_key.length ++ meta.first_key ++
    putU32 meta.last_key.length ++ meta.last_key

/-- `buf.get_u32()`: consume 4 big-endian bytes; `none` models the panic
of the `bytes` crate on buffer underflow. -/
def getU32 : List Nat → Option (Nat × List Nat)
  | b0 :: b1 :: b2 :: b3 :: rest =>
      some (((b0 * 256 + b1) * 256 + b2) * 256 + b3, rest)
  | _ => none

/-- `buf.copy_to_bytes(n)`: consume exactly `n` bytes; `none` models the
panic on buffer underflow. -/
def copyToBytes (n : Nat) (buf : List Nat) : Option (List Nat × List Nat) :=
  if n ≤ buf.length then some (buf.take n, buf.drop n) else none

/-- The `decode_block_meta` loop (`while buf.remaining() > 0`), with fuel
bounding the iteration count (each iteration consumes at least 12 bytes,
so fuel = initial buffer length always suffices and the fuel-out branch is
unreachable). -/
def decodeAux (fuel : Nat) (buf : List Nat) : Option (List BlockMeta) :=
  if buf.isEmpty then some []
  else
    match fuel with
    | 0 => none
    | fuel + 1 => do
      let (offset, r1) ← getU32 buf
      let (first_key_len, r2) ← getU32 r1
      let (first_key, r3) ← copyToBytes first_key_len r2
      let (last_key_len, r4) ← getU32 r3
      let (last_key, r5) ← copyToBytes last_key_len r4
      let rest ← decodeAux fuel r5
      some (⟨offset, first_key, last_key⟩ :: rest)

/-- `BlockMeta::decode_block_meta`; `none` models a panic on a corrupt
buffer (underflow in `get_u32`/`copy_to_bytes` inside the loop). -/
def decode_block_meta (buf : List Nat) : Option (List BlockMeta) :=
  decodeAux buf.length buf

/-! ## SsTable (`src/table.rs`) -/

/-- The bloom filter. Modelled from the spec: the `bloom` module is not
among the given sources and the spec does not constrain its byte
encoding, so the filter is modelled as its raw bytes and `Bloom::decode`
as total. -/
structure Bloom where
  data : List Nat
  deriving Repr, DecidableEq

/-- Modelled from the spec: `Bloom::decode` reads "the bloom filter
bytes"; with the encoding unconstrained it is modelled as always
succeeding on the raw bytes. -/
def Bloom.decode (buf : List Nat) : Bloom := ⟨buf⟩

/-- `SsTable`: the file is its byte contents (`FileObject` with the
logical size `file.length`); the block cache is not modelled (the claims
below do not touch `read_block_cached`). -/
structure SsTable where
  file : List Nat
  block_meta : List BlockMeta
  block_meta_offset : Nat
  id : Nat
  first_key : Key
  last_key : Key
  bloom : Option Bloom
  max_ts : Nat
  deriving Repr

/-- `FileObject::read(offset, len)` via `read_exact_at`: exactly `len`
bytes starting at `offset`, an error (`none`) when the range exceeds the
file's size. -/
def fileRead (file : List Nat) (offset len : Nat) : Option (List Nat) :=
  if offset + len ≤ file.length then some ((file.drop offset).take len) else none

/-- `buf.as_slice().get_u32()` on a freshly read 4-byte buffer (big
endian); the default 0 branch is unreachable because every caller reads
exactly 4 bytes. -/
def readU32BE : List Nat → Nat
  | b0 :: b1 :: b2 :: b3 :: _ => ((b0 * 256 + b1) * 256 + b2) * 256 + b3
  | _ => 0

/-- How `SsTable::open` fails: `io` is a returned `Err` (a read exceeding
file bounds, propagated with `?`); `panicked` is a panic (`unwrap()` on an
empty block-meta sequence, or buffer underflow inside
`decode_block_meta`). -/
inductive OpenErr where
  | io
  | panicked
  deriving Repr, DecidableEq

/-- The trailing-4-byte read of `SsTable::open`:
`file.read(file_size - 4, 4)`. -/
def trailerRead (file : List Nat) : Option (List Nat) :=
  fileRead file (u64sub file.length 4) 4

/-- The decoded bloom offset: `get_u32` of the trailer read. -/
def bloomOffsetVal (file : List Nat) : Option Nat :=
  (trailerRead file).map readU32BE

/-- The bloom filter read of `SsTable::open`:
`file.read(bloom_offset, file_size - bloom_offset - 4)`. -/
def bloomBuffer (file : List Nat) : Option (List Nat) :=
  (bloomOffsetVal file).bind fun bloom_offset =>
    fileRead file bloom_offset (u64sub (u64sub file.length bloom_offset) 4)

/-- The meta-offset read of `SsTable::open`:
`file.read(bloom_offset - 4, 4)`. -/
def metaOffsetBytes (file : List Nat) : Option (List Nat) :=
  (bloomOffsetVal file).bind fun bloom_offset =>
    fileRead file (u64sub bloom_offset 4) 4

/-- The decoded block-meta offset: `get_u32` of the meta-offset read. -/
def metaOffsetVal (file : List Nat) : Option Nat :=
  (metaOffsetBytes file).map readU32BE

/-- The block-meta section read of `SsTable::open`:
`file.read(block_meta_offset, bloom_offset - block_meta_offset - 4)`. -/
def metaBuffer (file : List Nat) : Option (List Nat) :=
  (bloomOffsetVal file).bind fun bloom_offset =>
    (metaOffsetVal file).bind fun block_meta_offset =>
      fileRead file block_meta_offset
        (u64sub (u64sub bloom_offset block_meta_offset) 4)

/-- `SsTable::open`. The four reads happen in source order
(trailer, bloom buffer, meta offset, meta buffer); a failed read is a
returned error (`io`). A read only occurs when all earlier reads
succeeded, so matching on the four read results at once is equivalent to
the source's sequential `?` chain. `first()/last().unwrap()` on an empty
decoded meta sequence is a panic, not a returned error. -/
def SsTable.open (id : Nat) (file : List Nat) : Except OpenErr SsTable :=
  match bloomOffsetVal file, bloomBuffer file,
      metaOffsetVal file, metaBuffer file with
  | some _, some bloom_buf, some block_meta_offset, some meta_buf =>
    match decode_block_meta meta_buf with
    | none => .error .panicked
    | some block_meta =>
      match block_meta.head?, block_meta.getLast? with
      | some m0, some mN =>
        .ok { file := file
              block_meta := block_meta
              block_meta_offset := block_meta_offset
              id := id
              first_key := m0.first_key
              last_key := mN.last_key
              bloom := some (Bloom.decode bloom_buf)
              max_ts := U64MOD - 1 }
      | _, _ => .error .panicked
  | _, _, _, _ => .error .io

/-- `SsTable::read_block`: `self.block_meta[block_idx]` panics when the
index is out of bounds (modelled `panicked`); the block length is
`next_offset - offset` where `next_offset` falls back to
`block_meta_offset` for the last block. `Block::decode` is external to
the given sources; the block is modelled as the raw bytes read. -/
def SsTable.read_block (t : SsTable) (block_idx : Nat) :
    Except OpenErr (List Nat) :=
  match t.block_meta.get? block_idx with
  | none => .error .panicked
  | some meta =>
    let offset := meta.offset
    let next_offset :=
      match t.block_meta.get? (block_idx + 1) with
      | some next_meta => next_meta.offset
      | none => t.block_meta_offset
    let block_len := u64sub next_offset offset
    match fileRead t.file offset block_len with
    | none => .error .io
    | some block_buffer => .ok block_buffer

/-- The comparator of `find_block_idx`:
`match meta.last_key.cmp(&key) { Equal => Greater, ord => ord }`. -/
def adjustedCmp (last_key key : Key) : Ordering :=
  match compare last_key key with
  | .eq => .gt
  | ord => ord

/-- `last_key` of the block at index `i` (the binary search only probes
in-bounds indices, so the default is never used). -/
def lastKeyAt (t : SsTable) (i : Nat) : Key :=
  ((t.block_meta.get? i).map (·.last_key)).getD []

/-- The loop of core Rust `slice::binary_search_by` (two-pointer halving;
`Ordering::Equal` returns `Ok(mid)`, exhaustion returns `Err(left)`),
with fuel bounding the iteration count: each iteration shrinks
`right - left` by at least one, so fuel = initial `right - left` always
suffices and the fuel-out branch is unreachable. -/
def binarySearchLoop : Nat → (Nat → Ordering) → Nat → Nat → Except Nat Nat
  | 0, _, left, _ => .error left
  | fuel + 1, cmp, left, right =>
    if left < right then
      match cmp (left + (right - left) / 2) with
      | .lt => binarySearchLoop fuel cmp (left + (right - left) / 2 + 1) right
      | .gt => binarySearchLoop fuel cmp left (left + (right - left) / 2)
      | .eq => .ok (left + (right - left) / 2)
    else .error left

/-- `slice::binary_search_by` over indices `0..n`. -/
def binarySearchBy (cmp : Nat → Ordering) (n : Nat) : Except Nat Nat :=
  binarySearchLoop n cmp 0 n

/-- `SsTable::find_block_idx`: binary search by adjusted comparison of
each meta's `last_key` against `key`, then `unwrap_err()`. The `Ok`
branch (comparator returned `Equal`) would panic in `unwrap_err()`,
modelled `none`; the adjusted comparator never returns `Equal`, so the
result is always `some`. -/
def SsTable.find_block_idx (t : SsTable) (key : Key) : Option Nat :=
  match binarySearchBy (fun i => adjustedCmp (lastKeyAt t i) key)
      t.block_meta.length with
  | .error i => some i
  | .ok _ => none

/-- `std::ops::Bound<&[u8]>` for scan/overlap bounds. -/
inductive KeyBound where
  | Included (k : Key)
  | Excluded (k : Key)
  | Unbounded
  deriving Repr, DecidableEq

/-- Whether `k` satisfies a lower bound (the mathematical reading of a
`Bound` used as a range start). -/
def inLower (b : KeyBound) (k : Key) : Bool :=
  match b with
  | .Included s => decide (s ≤ k)
  | .Excluded s => decide (s < k)
  | .Unbounded => true

/-- Whether `k` satisfies an upper bound (the mathematical reading of a
`Bound` used as a range end). -/
def inUpper (b : KeyBound) (k : Key) : Bool :=
  match b with
  | .Included s => decide (k ≤ s)
  | .Excluded s => decide (k < s)
  | .Unbounded => true

/-- The `lower_out_of_bound` computation of `SsTable::range_overlap`. -/
def lowerOutOfBound (last_key : Key) (lower : KeyBound) : Bool :=
  match lower with
  | .Included s => decide (s > last_key)
  | .Excluded s => decide (s ≥ last_key)
  | .Unbounded => false

/-- The `upper_out_of_bound` computation of `SsTable::range_overlap`. -/
def upperOutOfBound (first_key : Key) (upper : KeyBound) : Bool :=
  match upper with
  | .Included s => decide (s < first_key)
  | .Excluded s => decide (s ≤ first_key)
  | .Unbounded => false

/-- `SsTable::range_overlap`. -/
def SsTable.range_overlap (t : SsTable) (lower upper : KeyBound) : Bool :=
  !lowerOutOfBound t.last_key lower && !upperOutOfBound t.first_key upper

/-- The invariant on a table's meta sequence stated by the spec: per-block
ranges are well-formed and strictly increasing block to block. -/
def MetasSorted (bm : List BlockMeta) : Prop :=
  (∀ i m, bm.get? i = some m → m.first_key ≤ m.last_key) ∧
  (∀ i m m', bm.get? i = some m → bm.get? (i + 1) = some m' →
    m.last_key < m'.first_key)

/-! ## MVCC transaction layer (`src/mvcc/txn.rs`)

The surrounding engine (`LsmStorageInner`, `LsmMvccInner`, the iterators
in `iterators/` and `lsm_iterator.rs`) is part of the repository but not
among the given sources; where the claims need it, it is modelled from
the spec and marked as such. `HashSet<u32>` fingerprint sets are modelled
as duplicate-free `List Nat` (only membership and intersection matter);
the `BTreeMap`/`SkipMap` ordered maps are modelled as association lists,
sorted by key for the local store (whose iteration order matters). -/

/-- How a transaction operation fails: `usage` models the
`abort_if_committed` assertion panic ("Could not perform operation on
committed transactions"); `conflict` is the `anyhow!("Abort transaction")`
error of commit validation. -/
inductive TxnError where
  | usage
  | conflict
  deriving Repr, DecidableEq

/-- `HashSet::insert` on the list model of a hash set. -/
def hashInsert (x : Nat) (s : List Nat) : List Nat :=
  if x ∈ s then s else x :: s

/-- Whether two hash sets intersect:
`a.intersection(&b).next().is_some()`. -/
def hashIntersects (a b : List Nat) : Bool :=
  a.any fun x => decide (x ∈ b)

/-- `CommittedTxnData` (`src/mvcc/mod.rs` is not among the sources; the
fields are those constructed and consumed in `txn.rs`: write-set
fingerprints, `read_ts`, `commit_ts`). -/
structure CommittedTxnData where
  key_hashes : List Nat
  read_ts : Nat
  commit_ts : Nat
  deriving Repr, DecidableEq

/-- The fields of `Transaction` (without the engine handle, which is
passed separately as `EngineState`): snapshot timestamp, local buffered
writes (sorted association list modelling the `SkipMap`, empty value =
tombstone), the one-shot committed flag, and the optional
(write set, read set) fingerprint pair. -/
structure TxnState where
  read_ts : Nat
  local_storage : List (Key × Bytes)
  committed : Bool
  key_hashes : Option (List Nat × List Nat)
  deriving Repr, DecidableEq

/-- `WriteBatchRecord`: a put or a delete. -/
inductive WriteRecord where
  | Put (key : Key) (value : Bytes)
  | Del (key : Key)
  deriving Repr, DecidableEq

/-- The engine-side state that `txn.rs` reads and writes through
`self.inner`: the committed-transaction history keyed by `commit_ts`, the
latest commit timestamp, the current watermark, and (modelled from the
spec) the shared storage as the sequence of applied write batches. -/
structure EngineState where
  committed_txns : List (Nat × CommittedTxnData)
  latest_commit_ts : Nat
  watermark : Nat
  batches : List (List WriteRecord)
  deriving Repr, DecidableEq

/-- Insertion into the sorted association list modelling the local
`SkipMap` (upsert, keeping keys strictly increasing). -/
def localInsert (key : Key) (value : Bytes) :
    List (Key × Bytes) → List (Key × Bytes)
  | [] => [(key, value)]
  | (k, v) :: rest =>
    if key < k then (key, value) :: (k, v) :: rest
    else if key = k then (key, value) :: rest
    else (k, v) :: localInsert key value rest

/-- Lookup in the local store (`self.local_storage.get(key)`). -/
def localGet (key : Key) : List (Key × Bytes) → Option Bytes
  | [] => none
  | (k, v) :: rest => if key = k then some v else localGet key rest

/-- `abort_if_committed` guard: the committed flag read plus the
assertion, modelled as a `usage` error instead of a process abort. -/
def abortIfCommitted (txn : TxnState) : Except TxnError Unit :=
  if txn.committed then .error .usage else .ok ()

/-- Record a fingerprint into the read set (component `.1` of the pair)
when conflict detection is enabled — the `key_hashes` block of
`Transaction::get`. -/
def recordRead (h : Nat) (txn : TxnState) : TxnState :=
  match txn.key_hashes with
  | none => txn
  | some (ws, rs) => { txn with key_hashes := some (ws, hashInsert h rs) }

/-- Record a fingerprint into the write set (component `.0` of the pair)
when conflict detection is enabled — the `key_hashes` block of
`Transaction::put`/`delete`. -/
def recordWrite (h : Nat) (txn : TxnState) : TxnState :=
  match txn.key_hashes with
  | none => txn
  | some (ws, rs) => { txn with key_hashes := some (hashInsert h ws, rs) }

/-- `Transaction::get`. `hash32` stands for `farmhash::hash32`;
`engineGet` stands for `LsmStorageInner::get_with_ts(key, self.read_ts)`
(modelled from the spec: the engine's snapshot read at `read_ts`, external
to the given sources). Returns the result together with the transaction
state (whose read set the call may have grown). -/
def Transaction.get (hash32 : Key → Nat) (engineGet : Key → Option Bytes)
    (txn : TxnState) (key : Key) :
    Except TxnError (Option Bytes × TxnState) := do
  let _ ← abortIfCommitted txn
  let txn := recordRead (hash32 key) txn
  match localGet key txn.local_storage with
  | some v =>
    if v = [] then .ok (none, txn)
    else .ok (some v, txn)
  | none => .ok (engineGet key, txn)

/-- `Transaction::put`. -/
def Transaction.put (hash32 : Key → Nat) (txn : TxnState)
    (key : Key) (value : Bytes) : Except TxnError TxnState := do
  let _ ← abortIfCommitted txn
  let txn := recordWrite (hash32 key) txn
  .ok { txn with local_storage := localInsert key value txn.local_storage }

/-- `Transaction::delete`: a put of the empty value. -/
def Transaction.delete (hash32 : Key → Nat) (txn : TxnState)
    (key : Key) : Except TxnError TxnState := do
  let _ ← abortIfCommitted txn
  let txn := recordWrite (hash32 key) txn
  .ok { txn with local_storage := localInsert key [] txn.local_storage }

/-- The entries of the local store that fall inside the scan bounds, in
key order — the `TxnLocalIterator` sequence (`map.range(...)` positioned
by the initial `local_iter.next()`), including tombstones. -/
def localRange (ls : List (Key × Bytes)) (lower upper : KeyBound) :
    List (Key × Bytes) :=
  ls.filter fun e => inLower lower e.1 && inUpper upper e.1

/-- Modelled from the spec: `TwoMergeIterator` merges two key-sorted
sequences with the first (local) iterator taking priority on key
collision, advancing past the shadowed entry of the second. -/
def mergeEntriesAux : Nat → List (Key × Bytes) → List (Key × Bytes) →
    List (Key × Bytes)
  | 0, _, _ => []
  | _ + 1, [], b => b
  | _ + 1, a, [] => a
  | fuel + 1, (k1, v1) :: as', (k2, v2) :: bs' =>
    if k1 < k2 then (k1, v1) :: mergeEntriesAux fuel as' ((k2, v2) :: bs')
    else if k1 = k2 then (k1, v1) :: mergeEntriesAux fuel as' bs'
    else (k2, v2) :: mergeEntriesAux fuel ((k1, v1) :: as') bs'

/-- Modelled from the spec (continued): the merge, with fuel bounding the
step count (each step consumes at least one entry, so the sum of lengths
always suffices and the fuel-out branch is unreachable). -/
def mergeEntries (a b : List (Key × Bytes)) : List (Key × Bytes) :=
  mergeEntriesAux (a.length + b.length) a b

/-- `TxnIterator`: the remaining entries of the merged iterator; the
current position is the head (`is_valid` = nonempty, matching the
empty-key exhaustion sentinel under the engine-wide invariant that real
keys are nonempty). -/
structure TxnIterator where
  entries : List (Key × Bytes)
  deriving Repr, DecidableEq

/-- `StorageIterator::is_valid` for `TxnIterator`. -/
def TxnIterator.is_valid (it : TxnIterator) : Bool :=
  !it.entries.isEmpty

/-- `StorageIterator::key` for `TxnIterator` (junk default when invalid;
callers only read it when valid). -/
def TxnIterator.key (it : TxnIterator) : Key :=
  (it.entries.headD ([], [])).1

/-- `StorageIterator::value` for `TxnIterator`. -/
def TxnIterator.value (it : TxnIterator) : Bytes :=
  (it.entries.headD ([], [])).2

/-- `Transaction::scan`: guard, build the engine's snapshot scan
(`lsmEntries`, modelled from the spec: key-sorted live entries of
`scan_with_ts` at `read_ts`, external to the given sources), build the
local iterator over the same bounds, merge, and wrap — `TxnIterator::create`
does no tombstone skipping. -/
def Transaction.scan (txn : TxnState) (lsmEntries : List (Key × Bytes))
    (lower upper : KeyBound) : Except TxnError TxnIterator := do
  let _ ← abortIfCommitted txn
  let local_entries := localRange txn.local_storage lower upper
  .ok ⟨mergeEntries local_entries lsmEntries⟩

/-- `TxnIterator::next`: record the fingerprint of the key being left
behind into the read set (when tracking is enabled), advance, then skip
entries whose value is empty. Returns the advanced iterator and the
transaction state with the grown read set. -/
def TxnIterator.next (hash32 : Key → Nat) (it : TxnIterator)
    (txn : TxnState) : TxnIterator × TxnState :=
  let txn := recordRead (hash32 it.key) txn
  (⟨(it.entries.drop 1).dropWhile fun e => e.2.isEmpty⟩, txn)

/-- `Transaction::validate_commit` (reads the shared mvcc state passed as
`eng`): skip when detection is disabled or the write set is empty, else
conflict when any committed entry with `commit_ts` in
`[read_ts, latest_commit_ts + 1)` has write-set fingerprints intersecting
this transaction's read set. -/
def validate_commit (txn : TxnState) (eng : EngineState) :
    Except TxnError Unit :=
  match txn.key_hashes with
  | none => .ok ()
  | some (write_set, read_set) =>
    if write_set.isEmpty then .ok ()
    else
      let txn_start_ts := txn.read_ts
      let expected_commit_ts := eng.latest_commit_ts + 1
      let earlier_txns := eng.committed_txns.filter fun e =>
        decide (txn_start_ts ≤ e.1) && decide (e.1 < expected_commit_ts)
      if earlier_txns.any fun e => hashIntersects e.2.key_hashes read_set then
        .error .conflict
      else .ok ()

/-- The record batch built by `Transaction::commit` from the local store:
empty value ⇒ `Del`, otherwise `Put`. -/
def recordBatch (ls : List (Key × Bytes)) : List WriteRecord :=
  ls.map fun e => if e.2.isEmpty then .Del e.1 else .Put e.1 e.2

/-- Modelled from the spec: `LsmStorageInner::write_batch_inner` submits
the batch atomically to shared storage and "assigns and returns the new
`commit_ts`" (`latest_commit_ts + 1`). -/
def write_batch_inner (eng : EngineState) (batch : List WriteRecord) :
    Nat × EngineState :=
  let ts := eng.latest_commit_ts + 1
  (ts, { eng with latest_commit_ts := ts, batches := eng.batches ++ [batch] })

/-- `Transaction::commit` under the commit lock: validate (an error here
returns before any mutation), set the committed flag, submit the record
batch, then — when tracking is enabled — insert the `CommittedTxnData`
into the committed history and prune entries below the watermark. The
pair returned threads both states explicitly; on the error path they are
the untouched inputs, mirroring that the source mutates nothing before
`validate_commit(..)?`. Note there is no `abort_if_committed` guard. -/
def Transaction.commit (txn : TxnState) (eng : EngineState) :
    Except TxnError Unit × TxnState × EngineState :=
  match validate_commit txn eng with
  | .error e => (.error e, txn, eng)
  | .ok () =>
    let txn' := { txn with committed := true }
    let record_batch := recordBatch txn.local_storage
    let (commit_ts, eng1) := write_batch_inner eng record_batch
    match txn.key_hashes with
    | none => (.ok (), txn', eng1)
    | some (write_set, _) =>
      let commit_data : CommittedTxnData :=
        { key_hashes := write_set, read_ts := txn.read_ts,
          commit_ts := commit_ts }
      let inserted := eng1.committed_txns ++ [(commit_ts, commit_data)]
      let pruned := inserted.filter fun e => !decide (e.1 < eng1.watermark)
      (.ok (), txn', { eng1 with committed_txns := pruned })

/-! ## Helper lemmas: BlockMeta codec -/

theorem getU32_putU32 (n : Nat) (rest : List Nat) :
    getU32 (putU32 n ++ rest) = some (n % 4294967296, rest) := by
  simp only [putU32, List.cons_append, List.nil_append, getU32]
  congr 1
  congr 1
  omega

theorem copyToBytes_append (l rest : List Nat) :
    copyToBytes l.length (l ++ rest) = some (l, rest) := by
  simp [copyToBytes, List.take_left, List.drop_left]

theorem decodeAux_chunk (f off : Nat) (fk lk rest : List Nat)
    (ho : off < 4294967296) (h1 : fk.length < 4294967296)
    (h2 : lk.length < 4294967296) :
    decodeAux (f + 1) (putU32 off ++ (putU32 fk.length ++ (fk ++
        (putU32 lk.length ++ (lk ++ rest))))) =
      (decodeAux f rest).map fun ms => ⟨off, fk, lk⟩ :: ms := by
  rw [decodeAux]
  have hne : (putU32 off ++ (putU32 fk.length ++ (fk ++
      (putU32 lk.length ++ (lk ++ rest))))).isEmpty = false := by
    simp [putU32]
  rw [hne]
  simp only [Bool.false_eq_true, if_false, Option.bind_eq_bind]
  rw [getU32_putU32, Nat.mod_eq_of_lt ho]
  simp only [Option.some_bind]
  rw [getU32_putU32, Nat.mod_eq_of_lt h1]
  simp only [Option.some_bind]
  rw [copyToBytes_append]
  simp only [Option.some_bind]
  rw [getU32_putU32, Nat.mod_eq_of_lt h2]
  simp only [Option.some_bind]
  rw [copyToBytes_append]
  simp only [Option.some_bind]
  cases decodeAux f rest <;> rfl

theorem decodeAux_encode (ms : List BlockMeta)
    (hb : ∀ m ∈ ms, m.offset < 4294967296 ∧ m.first_key.length < 4294967296 ∧
      m.last_key.length < 4294967296) :
    ∀ fuel, (encode_block_meta ms).length ≤ fuel →
      decodeAux fuel (encode_block_meta ms) = some ms := by
  induction ms with
  | nil =>
    intro fuel _
    show decodeAux fuel [] = some []
    rw [decodeAux.eq_def]
    rfl
  | cons m ms ih =>
    intro fuel hfuel
    obtain ⟨ho, h1, h2⟩ := hb m (by simp)
    have henc : encode_block_meta (m :: ms) =
        putU32 m.offset ++ (putU32 m.first_key.length ++ (m.first_key ++
          (putU32 m.last_key.length ++ (m.last_key ++
            encode_block_meta ms)))) := by
      simp [encode_block_meta, List.flatMap_cons, List.append_assoc]
    have hlen : (encode_block_meta (m :: ms)).length =
        12 + m.first_key.length + m.last_key.length +
          (encode_block_meta ms).length := by
      simp [henc, putU32]
      omega
    obtain ⟨f, rfl⟩ : ∃ f, fuel = f + 1 := ⟨fuel - 1, by omega⟩
    rw [henc, decodeAux_chunk f m.offset m.first_key m.last_key _ ho h1 h2]
    rw [ih (fun x hx => hb x (by simp [hx])) f (by omega)]
    rfl

/-! ## Claim C5 -/

/-- Claim C5, counterexample: the claim quantifies over every sequence of
`BlockMeta`, but `encode_block_meta` truncates the `usize` offset with an
`as u32` cast, so an offset of `2^32` decodes back as `0` — the
round-trip is not bit-exact for that input. -/
theorem c5_counterexample :
    decode_block_meta (encode_block_meta [⟨4294967296, [], []⟩]) =
        some [⟨0, [], []⟩] ∧
      (⟨0, [], []⟩ : BlockMeta) ≠ ⟨4294967296, [], []⟩ := by
  constructor
  · decide
  · decide

/-- Claim C5 (amended): for every sequence of `BlockMeta` whose offsets
and key lengths fit in 32 bits, decoding the buffer produced by
`encode_block_meta` yields a sequence identical to the original — same
length and, per entry, the same offset, first-key bytes and last-key
bytes, bit-exact. -/
theorem c5_round_trip (ms : List BlockMeta)
    (hb : ∀ m ∈ ms, m.offset < 4294967296 ∧ m.first_key.length < 4294967296 ∧
      m.last_key.length < 4294967296) :
    decode_block_meta (encode_block_meta ms) = some ms :=
  decodeAux_encode ms hb _ le_rfl

/-- Claim C5, witness: the amended round-trip theorem applied at a
concrete sequence. -/
theorem c5_witness :
    (∀ m ∈ [(⟨7, [1, 2], [3]⟩ : BlockMeta), ⟨19, [4], [5, 6]⟩],
      m.offset < 4294967296 ∧ m.first_key.length < 4294967296 ∧
        m.last_key.length < 4294967296) ∧
    decode_block_meta (encode_block_meta
        [(⟨7, [1, 2], [3]⟩ : BlockMeta), ⟨19, [4], [5, 6]⟩]) =
      some [⟨7, [1, 2], [3]⟩, ⟨19, [4], [5, 6]⟩] :=
  ⟨by decide, c5_round_trip _ (by decide)⟩

/-! ## Helper lemmas: binary search and sorted metas -/

theorem binarySearchLoop_spec (cmp : Nat → Ordering) (n : Nat)
    (hne : ∀ i, i < n → cmp i ≠ .eq)
    (hmono : ∀ i j, i ≤ j → j < n → cmp j = .lt → cmp i = .lt) :
    ∀ fuel left right, right - left ≤ fuel → left ≤ right → right ≤ n →
      (∀ i, i < left → cmp i = .lt) →
      (∀ i, right ≤ i → i < n → cmp i ≠ .lt) →
      ∃ r, binarySearchLoop fuel cmp left right = .error r ∧ left ≤ r ∧
        r ≤ right ∧ (∀ i, i < r → cmp i = .lt) ∧
        (∀ i, r ≤ i → i < n → cmp i ≠ .lt) := by
  intro fuel
  induction fuel with
  | zero =>
    intro left right hf hlr _ hlo hhi
    have heq : left = right := by omega
    subst heq
    exact ⟨left, rfl, le_rfl, le_rfl, hlo, hhi⟩
  | succ fuel ih =>
    intro left right hf hlr hrn hlo hhi
    by_cases h : left < right
    · have hm1 : left ≤ left + (right - left) / 2 := by omega
      have hm2 : left + (right - left) / 2 < right := by omega
      simp only [binarySearchLoop, if_pos h]
      cases hc : cmp (left + (right - left) / 2) with
      | eq => exact absurd hc (hne _ (by omega))
      | lt =>
        obtain ⟨r, hr, h1, h2, h3, h4⟩ := ih (left + (right - left) / 2 + 1)
          right (by omega) (by omega) hrn
          (fun i hi => hmono i _ (by omega) (by omega) hc) hhi
        exact ⟨r, hr, by omega, h2, h3, h4⟩
      | gt =>
        obtain ⟨r, hr, h1, h2, h3, h4⟩ := ih left (left + (right - left) / 2)
          (by omega) (by omega) (by omega) hlo
          (fun i hi hin hcl => by
            have hmm := hmono _ i hi hin hcl
            rw [hc] at hmm
            exact Ordering.noConfusion hmm)
        exact ⟨r, hr, h1, by omega, h3, h4⟩
    · have heq : left = right := by omega
      subst heq
      simp only [binarySearchLoop, if_neg h]
      exact ⟨left, rfl, le_rfl, le_rfl, hlo, hhi⟩

theorem adjustedCmp_ne_eq (a b : Key) : adjustedCmp a b ≠ .eq := by
  unfold adjustedCmp
  cases h : compare a b <;> simp

theorem adjustedCmp_lt_iff (a b : Key) : adjustedCmp a b = .lt ↔ a < b := by
  unfold adjustedCmp
  cases h : compare a b with
  | lt =>
    rw [compare_lt_iff_lt] at h
    simp [h]
  | eq =>
    rw [compare_eq_iff_eq] at h
    subst h
    simp
  | gt =>
    rw [compare_gt_iff_gt] at h
    simp
    exact le_of_lt h

theorem lastKeyAt_eq (t : SsTable) (i : Nat) (m : BlockMeta)
    (h : t.block_meta.get? i = some m) : lastKeyAt t i = m.last_key := by
  rw [List.get?_eq_getElem?] at h
  simp [lastKeyAt, List.get?_eq_getElem?, h]

theorem metasSorted_last_lt_first (bm : List BlockMeta)
    (hs : MetasSorted bm) :
    ∀ j i mi mj, i < j → bm.get? i = some mi → bm.get? j = some mj →
      mi.last_key < mj.first_key := by
  intro j
  induction j with
  | zero =>
    intro i mi mj h
    omega
  | succ j ih =>
    intro i mi mj hij hgi hgj
    rcases Nat.lt_or_ge i j with h | h
    · have hj : j < bm.length := by
        obtain ⟨hlen, -⟩ := List.get?_eq_some.mp hgj
        omega
      cases hm' : bm.get? j with
      | none =>
        rw [List.get?_eq_none] at hm'
        omega
      | some m' =>
        calc mi.last_key < m'.first_key := ih i mi m' h hgi hm'
          _ ≤ m'.last_key := hs.1 j m' hm'
          _ < mj.first_key := hs.2 j m' mj hm' hgj
    · have heq : i = j := by omega
      subst heq
      exact hs.2 i mi mj hgi hgj

theorem metasSorted_mono (t : SsTable) (key : Key)
    (hs : MetasSorted t.block_meta) :
    ∀ i j, i ≤ j → j < t.block_meta.length →
      adjustedCmp (lastKeyAt t j) key = .lt →
      adjustedCmp (lastKeyAt t i) key = .lt := by
  intro i j hij hj hc
  rw [adjustedCmp_lt_iff] at hc ⊢
  rcases Nat.lt_or_ge i j with h | h
  · have hi : i < t.block_meta.length := by omega
    cases hgi : t.block_meta.get? i with
    | none =>
      rw [List.get?_eq_none] at hgi
      omega
    | some mi =>
      cases hgj : t.block_meta.get? j with
      | none =>
        rw [List.get?_eq_none] at hgj
        omega
      | some mj =>
        rw [lastKeyAt_eq t i mi hgi]
        rw [lastKeyAt_eq t j mj hgj] at hc
        calc mi.last_key < mj.first_key :=
              metasSorted_last_lt_first _ hs j i mi mj h hgi hgj
          _ ≤ mj.last_key := hs.1 j mj hgj
          _ < key := hc
  · have heq : i = j := by omega
    subst heq
    exact hc

/-- The partition-point description of `find_block_idx`: the result is
always `some r` with `r` the first index whose `last_key ≥ key` (monotone
comparator required only through `MetasSorted`). -/
theorem find_block_idx_partition (t : SsTable) (key : Key)
    (hmono : ∀ i j, i ≤ j → j < t.block_meta.length →
      adjustedCmp (lastKeyAt t j) key = .lt →
      adjustedCmp (lastKeyAt t i) key = .lt) :
    ∃ r, t.find_block_idx key = some r ∧ r ≤ t.block_meta.length ∧
      (∀ i, i < r → lastKeyAt t i < key) ∧
      (∀ i, r ≤ i → i < t.block_meta.length → ¬ lastKeyAt t i < key) := by
  obtain ⟨r, hr, _, h2, h3, h4⟩ := binarySearchLoop_spec
    (fun i => adjustedCmp (lastKeyAt t i) key) t.block_meta.length
    (fun i _ => adjustedCmp_ne_eq _ _) hmono t.block_meta.length 0
    t.block_meta.length (by omega) (by omega) le_rfl (by omega)
    (by omega)
  refine ⟨r, ?_, h2, fun i hi => ?_, fun i hi hin hlt => ?_⟩
  · rw [SsTable.find_block_idx, binarySearchBy, hr]
  · exact (adjustedCmp_lt_iff _ _).mp (h3 i hi)
  · exact h4 i hi hin ((adjustedCmp_lt_iff _ _).mpr hlt)

/-- Bridge from the decidable, list-structural form of the table
invariant to `MetasSorted`. -/
theorem metasSorted_of (bm : List BlockMeta)
    (h1 : ∀ m ∈ bm, m.first_key ≤ m.last_key)
    (h2 : bm.Chain' fun a b => a.last_key < b.first_key) : MetasSorted bm := by
  constructor
  · intro i m h
    exact h1 m (List.get?_mem h)
  · intro i m m' h h'
    rw [List.chain'_iff_get] at h2
    obtain ⟨hi, hm⟩ := List.get?_eq_some.mp h
    obtain ⟨hi', hm'⟩ := List.get?_eq_some.mp h'
    rw [← hm, ← hm']
    exact h2 i (by omega)

/-! ## Claim C7 -/

/-- Claim C7, counterexample: the table below has non-overlapping,
strictly increasing block ranges `[1]..[2]` and `[4]..[5]`, and the key
`[3]` lies within the overall range `[1]..[5]`; `find_block_idx` returns
`1` (the first block whose `last_key ≥ key`), but no block of the table
contains `[3]` — the "unique index `i` with
`first_key ≤ key ≤ last_key`" the claim describes does not exist. -/
theorem c7_counterexample :
    (∀ m ∈ [(⟨0, [1], [2]⟩ : BlockMeta), ⟨16, [4], [5]⟩],
      m.first_key ≤ m.last_key) ∧
    ((⟨0, [1], [2]⟩ : BlockMeta).last_key <
      (⟨16, [4], [5]⟩ : BlockMeta).first_key) ∧
    ([1] : Key) ≤ [3] ∧ ([3] : Key) ≤ [5] ∧
    SsTable.find_block_idx
      { file := [], block_meta := [⟨0, [1], [2]⟩, ⟨16, [4], [5]⟩],
        block_meta_offset := 32, id := 0, first_key := [1], last_key := [5],
        bloom := none, max_ts := 0 } [3] = some 1 ∧
    ∀ mj ∈ [(⟨0, [1], [2]⟩ : BlockMeta), ⟨16, [4], [5]⟩],
      ¬ (mj.first_key ≤ [3] ∧ [3] ≤ mj.last_key) := by
  refine ⟨by decide, by decide, by decide, by decide, by decide, by decide⟩

/-- Claim C7 (amended): for every table whose block ranges are
non-overlapping and strictly increasing and every key within the table's
overall `[first_key, last_key]` range, `find_block_idx` returns the index
of the first block whose `last_key ≥ key`; whenever some block's range
actually contains the key (the claim's described index exists), the
returned index is exactly that block, and when the key equals some
block's `last_key` the returned index is that block's index, not the
next one. -/
theorem c7_find_block_idx (t : SsTable) (key : Key)
    (hs : MetasSorted t.block_meta) (m0 mN : BlockMeta)
    (h0 : t.block_meta.head? = some m0)
    (hN : t.block_meta.getLast? = some mN)
    (hk0 : m0.first_key ≤ key) (hkN : key ≤ mN.last_key) :
    ∃ r mr, t.find_block_idx key = some r ∧
      t.block_meta.get? r = some mr ∧ key ≤ mr.last_key ∧
      (∀ j mj, j < r → t.block_meta.get? j = some mj →
        mj.last_key < key) ∧
      (∀ j mj, t.block_meta.get? j = some mj →
        mj.first_key ≤ key → key ≤ mj.last_key → j = r) ∧
      (∀ j mj, t.block_meta.get? j = some mj → mj.last_key = key →
        r = j) := by
  obtain ⟨r, hfind, hrle, hlt, hge⟩ :=
    find_block_idx_partition t key (metasSorted_mono t key hs)
  have hn : 0 < t.block_meta.length := by
    cases hbm : t.block_meta with
    | nil => rw [hbm] at h0; exact absurd h0 (by simp)
    | cons a l => simp
  have hNg : t.block_meta.get? (t.block_meta.length - 1) = some mN := by
    rw [List.get?_eq_getElem?, ← List.getLast?_eq_getElem?]
    exact hN
  have hrn : r < t.block_meta.length := by
    by_contra hc
    have hr : r = t.block_meta.length := by omega
    have := hlt (t.block_meta.length - 1) (by omega)
    rw [lastKeyAt_eq t _ mN hNg] at this
    exact absurd hkN (not_le_of_lt this)
  cases hgr : t.block_meta.get? r with
  | none =>
    rw [List.get?_eq_none] at hgr
    omega
  | some mr =>
    have hkr : key ≤ mr.last_key := by
      have := hge r le_rfl hrn
      rw [lastKeyAt_eq t r mr hgr] at this
      exact le_of_not_lt this
    refine ⟨r, mr, hfind, hgr, ?_, ?_, ?_, ?_⟩
    · have := hge r le_rfl hrn
      rw [lastKeyAt_eq t r mr hgr] at this
      exact le_of_not_lt this
    · intro j mj hj hgj
      have := hlt j hj
      rwa [lastKeyAt_eq t j mj hgj] at this
    · intro j mj hgj hj1 hj2
      rcases lt_trichotomy j r with h | h | h
      · have := hlt j h
        rw [lastKeyAt_eq t j mj hgj] at this
        exact absurd hj2 (not_le_of_lt this)
      · exact h
      · have hlf := metasSorted_last_lt_first _ hs j r mr mj h hgr hgj
        have hkk : key < key :=
          lt_of_lt_of_le (lt_of_le_of_lt hkr hlf) hj1
        exact absurd hkk (lt_irrefl key)
    · intro j mj hgj heq
      rcases lt_trichotomy j r with h | h | h
      · have := hlt j h
        rw [lastKeyAt_eq t j mj hgj] at this
        rw [heq] at this
        exact absurd this (lt_irrefl key)
      · omega
      · have hlf := metasSorted_last_lt_first _ hs j r mr mj h hgr hgj
        have hml : mj.first_key ≤ mj.last_key := hs.1 j mj hgj
        have : key < key := by
          calc key ≤ mr.last_key := hkr
            _ < mj.first_key := hlf
            _ ≤ mj.last_key := hml
            _ = key := heq
        exact absurd this (lt_irrefl key)

/-- Claim C7, witness: the amended theorem applied at a concrete
two-block table with `key = [2]`, the `last_key` of block 0 — the
returned index is 0, that block, not the next one. -/
theorem c7_witness :
    (∀ m ∈ [(⟨0, [1], [2]⟩ : BlockMeta), ⟨16, [3], [5]⟩],
      m.first_key ≤ m.last_key) ∧
    ((⟨0, [1], [2]⟩ : BlockMeta).last_key <
      (⟨16, [3], [5]⟩ : BlockMeta).first_key) ∧
    ([(⟨0, [1], [2]⟩ : BlockMeta), ⟨16, [3], [5]⟩].head? =
      some ⟨0, [1], [2]⟩) ∧
    ([(⟨0, [1], [2]⟩ : BlockMeta), ⟨16, [3], [5]⟩].getLast? =
      some ⟨16, [3], [5]⟩) ∧
    (⟨0, [1], [2]⟩ : BlockMeta).first_key ≤ [2] ∧
    ([2] : Key) ≤ (⟨16, [3], [5]⟩ : BlockMeta).last_key ∧
    (∃ r mr,
      SsTable.find_block_idx
        { file := [], block_meta := [⟨0, [1], [2]⟩, ⟨16, [3], [5]⟩],
          block_meta_offset := 32, id := 0, first_key := [1],
          last_key := [5], bloom := none, max_ts := 0 } [2] = some r ∧
      [(⟨0, [1], [2]⟩ : BlockMeta), ⟨16, [3], [5]⟩].get? r = some mr ∧
      ([2] : Key) ≤ mr.last_key ∧
      (∀ j mj, j < r →
        [(⟨0, [1], [2]⟩ : BlockMeta), ⟨16, [3], [5]⟩].get? j = some mj →
        mj.last_key < [2]) ∧
      (∀ j mj,
        [(⟨0, [1], [2]⟩ : BlockMeta), ⟨16, [3], [5]⟩].get? j = some mj →
        mj.first_key ≤ [2] → ([2] : Key) ≤ mj.last_key → j = r) ∧
      (∀ j mj,
        [(⟨0, [1], [2]⟩ : BlockMeta), ⟨16, [3], [5]⟩].get? j = some mj →
        mj.last_key = [2] → r = j)) :=
  ⟨by decide, by decide, by decide, by decide, by decide, by decide,
    c7_find_block_idx
      { file := [], block_meta := [⟨0, [1], [2]⟩, ⟨16, [3], [5]⟩],
        block_meta_offset := 32, id := 0, first_key := [1],
        last_key := [5], bloom := none, max_ts := 0 } [2]
      (metasSorted_of _ (by decide)
        (List.chain'_cons.mpr ⟨by decide, List.chain'_singleton _⟩))
      ⟨0, [1], [2]⟩ ⟨16, [3], [5]⟩ (by decide) (by decide) (by decide)
      (by decide)⟩

/-! ## Claim C10 -/

/-- Claim C10: for every key strictly greater than every block's
`last_key`, `find_block_idx` returns `block_meta.len()` — an index with
no corresponding block — and `read_block` at that index hits the
out-of-bounds indexing `self.block_meta[block_idx]` (a panic), rather
than returning an error. -/
theorem c10_past_the_end (t : SsTable) (key : Key)
    (hgt : ∀ m ∈ t.block_meta, m.last_key < key) :
    t.find_block_idx key = some t.block_meta.length ∧
      t.read_block t.block_meta.length = .error .panicked := by
  have hmono : ∀ i j, i ≤ j → j < t.block_meta.length →
      adjustedCmp (lastKeyAt t j) key = .lt →
      adjustedCmp (lastKeyAt t i) key = .lt := by
    intro i j hij hj _
    rw [adjustedCmp_lt_iff]
    cases hgi : t.block_meta.get? i with
    | none =>
      rw [List.get?_eq_none] at hgi
      omega
    | some mi =>
      rw [lastKeyAt_eq t i mi hgi]
      exact hgt mi (List.get?_mem hgi)
  obtain ⟨r, hfind, hrle, hlt, hge⟩ := find_block_idx_partition t key hmono
  have hr : r = t.block_meta.length := by
    by_contra hc
    have hrn : r < t.block_meta.length := by omega
    cases hgr : t.block_meta.get? r with
    | none =>
      rw [List.get?_eq_none] at hgr
      omega
    | some mr =>
      have := hge r le_rfl hrn
      rw [lastKeyAt_eq t r mr hgr] at this
      exact this (hgt mr (List.get?_mem hgr))
  have hnone : t.block_meta.get? t.block_meta.length = none := by
    rw [List.get?_eq_none]
  constructor
  · rw [← hr]
    exact hfind
  · simp [SsTable.read_block, hnone]

/-- Claim C10, witness: the theorem applied at a concrete one-block
table with a key above its `last_key`. -/
theorem c10_witness :
    (∀ m ∈ [(⟨0, [1], [2]⟩ : BlockMeta)], m.last_key < [9]) ∧
    (SsTable.find_block_idx
        { file := [0, 1, 2, 3], block_meta := [⟨0, [1], [2]⟩],
          block_meta_offset := 4, id := 0, first_key := [1],
          last_key := [2], bloom := none, max_ts := 0 } [9] = some 1 ∧
      SsTable.read_block
        { file := [0, 1, 2, 3], block_meta := [⟨0, [1], [2]⟩],
          block_meta_offset := 4, id := 0, first_key := [1],
          last_key := [2], bloom := none, max_ts := 0 } 1 =
        .error .panicked) :=
  ⟨by decide,
    c10_past_the_end
      { file := [0, 1, 2, 3], block_meta := [⟨0, [1], [2]⟩],
        block_meta_offset := 4, id := 0, first_key := [1],
        last_key := [2], bloom := none, max_ts := 0 } [9] (by decide)⟩

/-! ## Claim C8 -/

/-- The true/existence direction of the overlap test, under the table
invariant `first_key ≤ last_key` and a non-empty query interval. -/
theorem range_overlap_true_iff (t : SsTable) (lower upper : KeyBound)
    (hfl : t.first_key ≤ t.last_key)
    (hq : ∃ k0, inLower lower k0 = true ∧ inUpper upper k0 = true) :
    t.range_overlap lower upper = true ↔
      ∃ k, t.first_key ≤ k ∧ k ≤ t.last_key ∧
        inLower lower k = true ∧ inUpper upper k = true := by
  obtain ⟨k0, hq1, hq2⟩ := hq
  rw [SsTable.range_overlap, Bool.and_eq_true, Bool.not_eq_true',
    Bool.not_eq_true']
  constructor
  · rintro ⟨hlob, huob⟩
    refine ⟨max t.first_key (min k0 t.last_key), le_max_left _ _,
      max_le hfl (min_le_right _ _), ?_, ?_⟩
    · cases lower with
      | Unbounded => rfl
      | Included s =>
        simp only [lowerOutOfBound, decide_eq_false_iff_not, not_lt] at hlob
        simp only [inLower, decide_eq_true_eq] at hq1 ⊢
        exact le_trans (le_min hq1 hlob) (le_max_right _ _)
      | Excluded s =>
        simp only [lowerOutOfBound, decide_eq_false_iff_not, not_le] at hlob
        simp only [inLower, decide_eq_true_eq] at hq1 ⊢
        exact lt_of_lt_of_le (lt_min hq1 hlob) (le_max_right _ _)
    · cases upper with
      | Unbounded => rfl
      | Included s =>
        simp only [upperOutOfBound, decide_eq_false_iff_not, not_lt] at huob
        simp only [inUpper, decide_eq_true_eq] at hq2 ⊢
        exact max_le huob (le_trans (min_le_left _ _) hq2)
      | Excluded s =>
        simp only [upperOutOfBound, decide_eq_false_iff_not, not_le] at huob
        simp only [inUpper, decide_eq_true_eq] at hq2 ⊢
        exact max_lt huob (lt_of_le_of_lt (min_le_left _ _) hq2)
  · rintro ⟨k, hk1, hk2, hk3, hk4⟩
    constructor
    · cases lower with
      | Unbounded => rfl
      | Included s =>
        simp only [inLower, decide_eq_true_eq] at hk3
        simp only [lowerOutOfBound, decide_eq_false_iff_not, not_lt]
        exact le_trans hk3 hk2
      | Excluded s =>
        simp only [inLower, decide_eq_true_eq] at hk3
        simp only [lowerOutOfBound, decide_eq_false_iff_not, not_le]
        exact lt_of_lt_of_le hk3 hk2
    · cases upper with
      | Unbounded => rfl
      | Included s =>
        simp only [inUpper, decide_eq_true_eq] at hk4
        simp only [upperOutOfBound, decide_eq_false_iff_not, not_lt]
        exact le_trans hk1 hk4
      | Excluded s =>
        simp only [inUpper, decide_eq_true_eq] at hk4
        simp only [upperOutOfBound, decide_eq_false_iff_not, not_le]
        exact lt_of_le_of_lt hk1 hk4

/-- Claim C8, counterexample: with the table range `[1]..[5]` and the
inverted query `[Included [4], Included [2]]` (an empty interval), the
closed table interval has no intersection with the query, yet
`range_overlap` returns `true` — the claimed "returns false exactly when
there is no intersection" fails for empty query intervals. -/
theorem c8_counterexample :
    SsTable.range_overlap
      { file := [], block_meta := [⟨0, [1], [5]⟩], block_meta_offset := 16,
        id := 0, first_key := [1], last_key := [5], bloom := none,
        max_ts := 0 } (.Included [4]) (.Included [2]) = true ∧
    ¬ ∃ k : Key, [1] ≤ k ∧ k ≤ [5] ∧
      inLower (.Included [4]) k = true ∧ inUpper (.Included [2]) k = true := by
  constructor
  · decide
  · rintro ⟨k, -, -, h3, h4⟩
    simp only [inLower, inUpper, decide_eq_true_eq] at h3 h4
    have : ([4] : Key) ≤ [2] := le_trans h3 h4
    exact absurd this (by decide)

/-- Claim C8 (amended): for every table with `first_key ≤ last_key` and
every pair of bounds forming a non-empty query interval (some key
satisfies both bounds), `range_overlap` returns false exactly when the
table's closed `[first_key, last_key]` interval has no intersection with
the query interval under the precise inclusive/exclusive semantics of
each bound kind; and unconditionally it returns false for an exclusive
lower bound equal to `last_key` and for an exclusive upper bound equal
to `first_key`. For empty (inverted) query intervals the code can return
true with no intersection. -/
theorem c8_range_overlap (t : SsTable) (lower upper : KeyBound)
    (hfl : t.first_key ≤ t.last_key)
    (hq : ∃ k0, inLower lower k0 = true ∧ inUpper upper k0 = true) :
    (t.range_overlap lower upper = false ↔
      ¬ ∃ k, t.first_key ≤ k ∧ k ≤ t.last_key ∧
        inLower lower k = true ∧ inUpper upper k = true) ∧
    t.range_overlap (.Excluded t.last_key) upper = false ∧
    t.range_overlap lower (.Excluded t.first_key) = false := by
  refine ⟨?_, ?_, ?_⟩
  · rw [← range_overlap_true_iff t lower upper hfl hq]
    cases h : t.range_overlap lower upper <;> simp [h]
  · rw [SsTable.range_overlap]
    simp [lowerOutOfBound]
  · rw [SsTable.range_overlap]
    simp [upperOutOfBound]

/-- Claim C8, witness: the amended theorem applied at a concrete table
and a non-empty query interval. -/
theorem c8_witness :
    (([1] : Key) ≤ [5]) ∧
    (inLower (.Included [2]) ([2] : Key) = true ∧
      inUpper .Unbounded ([2] : Key) = true) ∧
    ((SsTable.range_overlap
        { file := [], block_meta := [⟨0, [1], [5]⟩], block_meta_offset := 16,
          id := 0, first_key := [1], last_key := [5], bloom := none,
          max_ts := 0 } (.Included [2]) .Unbounded = false ↔
      ¬ ∃ k, ([1] : Key) ≤ k ∧ k ≤ [5] ∧
        inLower (.Included [2]) k = true ∧ inUpper .Unbounded k = true) ∧
    SsTable.range_overlap
      { file := [], block_meta := [⟨0, [1], [5]⟩], block_meta_offset := 16,
        id := 0, first_key := [1], last_key := [5], bloom := none,
        max_ts := 0 } (.Excluded [5]) .Unbounded = false ∧
    SsTable.range_overlap
      { file := [], block_meta := [⟨0, [1], [5]⟩], block_meta_offset := 16,
        id := 0, first_key := [1], last_key := [5], bloom := none,
        max_ts := 0 } (.Included [2]) (.Excluded [1]) = false) :=
  ⟨by decide, ⟨by decide, by decide⟩,
    c8_range_overlap
      { file := [], block_meta := [⟨0, [1], [5]⟩], block_meta_offset := 16,
        id := 0, first_key := [1], last_key := [5], bloom := none,
        max_ts := 0 } (.Included [2]) .Unbounded (by decide)
      ⟨[2], by decide, by decide⟩⟩

/-! ## Helper lemmas: MVCC -/

theorem recordRead_local_storage (h : Nat) (txn : TxnState) :
    (recordRead h txn).local_storage = txn.local_storage := by
  obtain ⟨rts, ls, cm, kh⟩ := txn
  cases kh with
  | none => rfl
  | some p => obtain ⟨ws, rs⟩ := p; rfl

theorem recordRead_committed (h : Nat) (txn : TxnState) :
    (recordRead h txn).committed = txn.committed := by
  obtain ⟨rts, ls, cm, kh⟩ := txn
  cases kh with
  | none => rfl
  | some p => obtain ⟨ws, rs⟩ := p; rfl

theorem recordWrite_local_storage (h : Nat) (txn : TxnState) :
    (recordWrite h txn).local_storage = txn.local_storage := by
  obtain ⟨rts, ls, cm, kh⟩ := txn
  cases kh with
  | none => rfl
  | some p => obtain ⟨ws, rs⟩ := p; rfl

theorem recordWrite_committed (h : Nat) (txn : TxnState) :
    (recordWrite h txn).committed = txn.committed := by
  obtain ⟨rts, ls, cm, kh⟩ := txn
  cases kh with
  | none => rfl
  | some p => obtain ⟨ws, rs⟩ := p; rfl

theorem localGet_localInsert (key : Key) (v : Bytes)
    (ls : List (Key × Bytes)) :
    localGet key (localInsert key v ls) = some v := by
  induction ls with
  | nil => simp [localInsert, localGet]
  | cons e rest ih =>
    obtain ⟨k, w⟩ := e
    by_cases h1 : key < k
    · simp [localInsert, h1, localGet]
    · by_cases h2 : key = k
      · simp [localInsert, h1, h2, localGet]
      · simp [localInsert, h1, h2, localGet, ih]

/-- `validate_commit` fails exactly on a history entry in
`[read_ts, latest_commit_ts + 1)` whose write set meets the read set
(when detection is on and the write set is non-empty). -/
theorem validate_commit_error_iff (txn : TxnState) (eng : EngineState)
    (ws rs : List Nat) (hkh : txn.key_hashes = some (ws, rs))
    (hne : ws ≠ []) :
    validate_commit txn eng = .error .conflict ↔
      ∃ p ∈ eng.committed_txns, txn.read_ts ≤ p.1 ∧
        p.1 < eng.latest_commit_ts + 1 ∧
        ∃ h ∈ p.2.key_hashes, h ∈ rs := by
  rw [validate_commit.eq_def, hkh]
  dsimp only
  have hwe : ws.isEmpty = false := by
    cases ws with
    | nil => exact absurd rfl hne
    | cons a l => rfl
  rw [hwe]
  simp only [Bool.false_eq_true, if_false]
  by_cases hb : (eng.committed_txns.filter fun e =>
      decide (txn.read_ts ≤ e.1) && decide (e.1 < eng.latest_commit_ts + 1)).any
      fun e => hashIntersects e.2.key_hashes rs
  · rw [if_pos hb]
    simp only [true_iff]
    rw [List.any_eq_true] at hb
    obtain ⟨p, hp, hint⟩ := hb
    rw [List.mem_filter] at hp
    obtain ⟨hp1, hp2⟩ := hp
    rw [Bool.and_eq_true, decide_eq_true_eq, decide_eq_true_eq] at hp2
    rw [hashIntersects, List.any_eq_true] at hint
    obtain ⟨h, hh, hhr⟩ := hint
    rw [decide_eq_true_eq] at hhr
    exact ⟨p, hp1, hp2.1, hp2.2, h, hh, hhr⟩
  · rw [if_neg hb]
    simp only [reduceCtorEq, false_iff, not_exists]
    rintro p ⟨hp, hp1, hp2, h, hh, hhr⟩
    apply hb
    rw [List.any_eq_true]
    refine ⟨p, ?_, ?_⟩
    · rw [List.mem_filter]
      exact ⟨hp, by rw [Bool.and_eq_true, decide_eq_true_eq,
        decide_eq_true_eq]; exact ⟨hp1, hp2⟩⟩
    · rw [hashIntersects, List.any_eq_true]
      exact ⟨h, hh, by rw [decide_eq_true_eq]; exact hhr⟩

theorem validate_commit_disabled (txn : TxnState) (eng : EngineState)
    (hkh : txn.key_hashes = none) : validate_commit txn eng = .ok () := by
  rw [validate_commit.eq_def, hkh]

theorem validate_commit_empty_ws (txn : TxnState) (eng : EngineState)
    (rs : List Nat) (hkh : txn.key_hashes = some ([], rs)) :
    validate_commit txn eng = .ok () := by
  rw [validate_commit.eq_def, hkh]
  rfl

/-- `validate_commit` either succeeds or fails with the conflict error. -/
theorem validate_commit_cases (txn : TxnState) (eng : EngineState) :
    validate_commit txn eng = .ok () ∨
      validate_commit txn eng = .error .conflict := by
  rw [validate_commit.eq_def]
  cases hkh : txn.key_hashes with
  | none => exact Or.inl rfl
  | some p =>
    obtain ⟨ws, rs⟩ := p
    dsimp only
    by_cases hwe : ws.isEmpty
    · rw [hwe]
      exact Or.inl rfl
    · rw [Bool.not_eq_true] at hwe
      rw [hwe]
      simp only [Bool.false_eq_true, if_false]
      split
      · exact Or.inr rfl
      · exact Or.inl rfl

/-- On successful validation, `commit` returns `ok` and the submitted
batch is appended to the shared storage. -/
theorem commit_ok_of_validate (txn : TxnState) (eng : EngineState)
    (hv : validate_commit txn eng = .ok ()) :
    (Transaction.commit txn eng).1 = .ok () ∧
      (Transaction.commit txn eng).2.1 = { txn with committed := true } ∧
      (Transaction.commit txn eng).2.2.batches =
        eng.batches ++ [recordBatch txn.local_storage] := by
  rw [Transaction.commit.eq_def, hv]
  cases hkh : txn.key_hashes with
  | none => exact ⟨rfl, rfl, rfl⟩
  | some p =>
    obtain ⟨ws, rs⟩ := p
    exact ⟨rfl, rfl, rfl⟩

/-! ## Claim C1 -/

/-- Claim C1: with conflict detection enabled and a non-empty write set,
commit aborts with the conflict error iff some committed-history entry
with `commit_ts` in `[read_ts, latest_commit_ts + 1)` has write-set
fingerprints intersecting this transaction's read set; with detection
disabled or an empty write set, validation always succeeds and commit
returns ok. -/
theorem c1_conflict_detection (txn : TxnState) (eng : EngineState) :
    (∀ ws rs, txn.key_hashes = some (ws, rs) → ws ≠ [] →
      ((Transaction.commit txn eng).1 = .error .conflict ↔
        ∃ p ∈ eng.committed_txns, txn.read_ts ≤ p.1 ∧
          p.1 < eng.latest_commit_ts + 1 ∧
          ∃ h ∈ p.2.key_hashes, h ∈ rs)) ∧
    ((txn.key_hashes = none ∨ ∃ rs, txn.key_hashes = some ([], rs)) →
      (Transaction.commit txn eng).1 = .ok ()) := by
  constructor
  · intro ws rs hkh hne
    rw [← validate_commit_error_iff txn eng ws rs hkh hne]
    rcases validate_commit_cases txn eng with hv | hv
    · have hok := (commit_ok_of_validate txn eng hv).1
      rw [hv, hok]
    · have hcm : Transaction.commit txn eng =
          (.error .conflict, txn, eng) := by
        rw [Transaction.commit.eq_def, hv]
      rw [hv, hcm]
  · intro hdis
    have hv : validate_commit txn eng = .ok () := by
      rcases hdis with h | ⟨rs, h⟩
      · exact validate_commit_disabled txn eng h
      · exact validate_commit_empty_ws txn eng rs h
    exact (commit_ok_of_validate txn eng hv).1

/-- Claim C1, witness: a concrete enabled transaction whose read set
meets a history entry's write set in the window, so the iff detects the
conflict; evaluated both ways. -/
theorem c1_witness :
    ((⟨0, [([1], [2])], false, some ([5], [7])⟩ : TxnState).key_hashes =
      some ([5], [7])) ∧ ([5] : List Nat) ≠ [] ∧
    ((Transaction.commit ⟨0, [([1], [2])], false, some ([5], [7])⟩
        ⟨[(1, ⟨[7], 0, 1⟩)], 1, 0, []⟩).1 = .error .conflict ↔
      ∃ p ∈ [((1 : Nat), (⟨[7], 0, 1⟩ : CommittedTxnData))],
        (0 : Nat) ≤ p.1 ∧ p.1 < 1 + 1 ∧ ∃ h ∈ p.2.key_hashes,
          h ∈ ([7] : List Nat)) :=
  ⟨rfl, by decide,
    (c1_conflict_detection ⟨0, [([1], [2])], false, some ([5], [7])⟩
      ⟨[(1, ⟨[7], 0, 1⟩)], 1, 0, []⟩).1 [5] [7] rfl (by decide)⟩

/-! ## Claim C3 -/

/-- Claim C3: when commit validation fails, commit returns the conflict
error with no state change — the committed flag stays false, no write
batch is submitted, and nothing is inserted into the
committed-transaction history. -/
theorem c3_failed_commit_no_state_change (txn : TxnState)
    (eng : EngineState) (hc : txn.committed = false)
    (hv : validate_commit txn eng = .error .conflict) :
    Transaction.commit txn eng = (.error .conflict, txn, eng) ∧
      (Transaction.commit txn eng).2.1.committed = false ∧
      (Transaction.commit txn eng).2.2.batches = eng.batches ∧
      (Transaction.commit txn eng).2.2.committed_txns =
        eng.committed_txns := by
  have h1 : Transaction.commit txn eng = (.error .conflict, txn, eng) := by
    rw [Transaction.commit.eq_def, hv]
  refine ⟨h1, ?_, ?_, ?_⟩ <;> rw [h1]
  exact hc

/-- Claim C3, witness: the theorem applied at a concrete transaction
whose validation fails. -/
theorem c3_witness :
    ((⟨0, [([1], [2])], false, some ([5], [7])⟩ : TxnState).committed =
      false) ∧
    (validate_commit ⟨0, [([1], [2])], false, some ([5], [7])⟩
      ⟨[(1, ⟨[7], 0, 1⟩)], 1, 0, []⟩ = .error .conflict) ∧
    (Transaction.commit ⟨0, [([1], [2])], false, some ([5], [7])⟩
        ⟨[(1, ⟨[7], 0, 1⟩)], 1, 0, []⟩ =
      (.error .conflict, ⟨0, [([1], [2])], false, some ([5], [7])⟩,
        ⟨[(1, ⟨[7], 0, 1⟩)], 1, 0, []⟩) ∧
      (Transaction.commit ⟨0, [([1], [2])], false, some ([5], [7])⟩
        ⟨[(1, ⟨[7], 0, 1⟩)], 1, 0, []⟩).2.1.committed = false ∧
      (Transaction.commit ⟨0, [([1], [2])], false, some ([5], [7])⟩
        ⟨[(1, ⟨[7], 0, 1⟩)], 1, 0, []⟩).2.2.batches = [] ∧
      (Transaction.commit ⟨0, [([1], [2])], false, some ([5], [7])⟩
        ⟨[(1, ⟨[7], 0, 1⟩)], 1, 0, []⟩).2.2.committed_txns =
        [(1, ⟨[7], 0, 1⟩)]) :=
  ⟨rfl, rfl,
    c3_failed_commit_no_state_change
      ⟨0, [([1], [2])], false, some ([5], [7])⟩
      ⟨[(1, ⟨[7], 0, 1⟩)], 1, 0, []⟩ rfl rfl⟩

theorem exceptBind_err {e : TxnError} {a b : Type}
    (f : a → Except TxnError b) :
    ((Except.error e : Except TxnError a) >>= f) = .error e := rfl

theorem exceptBind_ok {a b : Type} (v : a) (f : a → Except TxnError b) :
    ((Except.ok v : Except TxnError a) >>= f) = f v := rfl

theorem abortIfCommitted_of_committed (txn : TxnState)
    (hc : txn.committed = true) : abortIfCommitted txn = .error .usage := by
  rw [abortIfCommitted, if_pos hc]

theorem abortIfCommitted_of_live (txn : TxnState)
    (hc : txn.committed = false) : abortIfCommitted txn = .ok () := by
  rw [abortIfCommitted, if_neg (by rw [hc]; exact Bool.false_ne_true)]

/-! ## Claim C9 -/

/-- Claim C9: `commit` performs no check of the one-shot committed flag.
For a transaction whose committed flag is already set, `get`, `scan`,
`put` and `delete` all halt at the committed-transaction guard, but
`commit` does not; if validation passes again it returns ok and
re-submits the local-store entries as another write batch. -/
theorem c9_commit_unguarded (hash32 : Key → Nat)
    (engineGet : Key → Option Bytes) (txn : TxnState) (eng : EngineState)
    (lsmEntries : List (Key × Bytes)) (lower upper : KeyBound)
    (key : Key) (value : Bytes) (hc : txn.committed = true) :
    (validate_commit txn eng = .ok () →
      (Transaction.commit txn eng).1 = .ok () ∧
      (Transaction.commit txn eng).2.2.batches =
        eng.batches ++ [recordBatch txn.local_storage]) ∧
    Transaction.get hash32 engineGet txn key = .error .usage ∧
    Transaction.scan txn lsmEntries lower upper = .error .usage ∧
    Transaction.put hash32 txn key value = .error .usage ∧
    Transaction.delete hash32 txn key = .error .usage := by
  have habort := abortIfCommitted_of_committed txn hc
  refine ⟨fun hv => ⟨(commit_ok_of_validate txn eng hv).1,
    (commit_ok_of_validate txn eng hv).2.2⟩, ?_, ?_, ?_, ?_⟩
  · simp [Transaction.get, habort, exceptBind_err]
  · simp [Transaction.scan, habort, exceptBind_err]
  · simp [Transaction.put, habort, exceptBind_err]
  · simp [Transaction.delete, habort, exceptBind_err]

/-- Claim C9, witness: a concrete already-committed transaction (conflict
detection disabled, so validation passes): commit succeeds again and
re-submits the batch, while the four data operations all halt. -/
theorem c9_witness :
    ((⟨0, [([1], [2])], true, none⟩ : TxnState).committed = true) ∧
    ((validate_commit ⟨0, [([1], [2])], true, none⟩ ⟨[], 3, 0, [[.Put [1] [2]]]⟩ =
        .ok () →
      (Transaction.commit ⟨0, [([1], [2])], true, none⟩
        ⟨[], 3, 0, [[.Put [1] [2]]]⟩).1 = .ok () ∧
      (Transaction.commit ⟨0, [([1], [2])], true, none⟩
        ⟨[], 3, 0, [[.Put [1] [2]]]⟩).2.2.batches =
        [[.Put [1] [2]]] ++ [recordBatch [([1], [2])]]) ∧
    Transaction.get (fun _ => 0) (fun _ => none)
      ⟨0, [([1], [2])], true, none⟩ [1] = .error .usage ∧
    Transaction.scan ⟨0, [([1], [2])], true, none⟩ [] .Unbounded .Unbounded =
      .error .usage ∧
    Transaction.put (fun _ => 0) ⟨0, [([1], [2])], true, none⟩ [1] [9] =
      .error .usage ∧
    Transaction.delete (fun _ => 0) ⟨0, [([1], [2])], true, none⟩ [1] =
      .error .usage) :=
  ⟨rfl, c9_commit_unguarded (fun _ => 0) (fun _ => none)
    ⟨0, [([1], [2])], true, none⟩ ⟨[], 3, 0, [[.Put [1] [2]]]⟩ []
    .Unbounded .Unbounded [1] [9] rfl⟩

/-! ## Claim C4 -/

theorem get_local_case (hash32 : Key → Nat) (engineGet : Key → Option Bytes)
    (txn : TxnState) (key : Key) (v : Bytes) (hc : txn.committed = false)
    (hl : localGet key txn.local_storage = some v) :
    Transaction.get hash32 engineGet txn key =
      .ok ((if v = [] then none else some v),
        recordRead (hash32 key) txn) := by
  have habort := abortIfCommitted_of_live txn hc
  simp only [Transaction.get, habort, exceptBind_ok,
    recordRead_local_storage, hl]
  by_cases hv : v = [] <;> simp [hv]

theorem get_engine_case (hash32 : Key → Nat) (engineGet : Key → Option Bytes)
    (txn : TxnState) (key : Key) (hc : txn.committed = false)
    (hl : localGet key txn.local_storage = none) :
    Transaction.get hash32 engineGet txn key =
      .ok (engineGet key, recordRead (hash32 key) txn) := by
  have habort := abortIfCommitted_of_live txn hc
  simp [Transaction.get, habort, exceptBind_ok, recordRead_local_storage, hl]

theorem put_ok (hash32 : Key → Nat) (txn : TxnState) (key : Key)
    (value : Bytes) (hc : txn.committed = false) :
    ∃ txn1, Transaction.put hash32 txn key value = .ok txn1 ∧
      txn1.committed = false ∧
      txn1.local_storage = localInsert key value txn.local_storage := by
  have habort := abortIfCommitted_of_live txn hc
  refine ⟨{ recordWrite (hash32 key) txn with
    local_storage := localInsert key value
      (recordWrite (hash32 key) txn).local_storage }, ?_, ?_, ?_⟩
  · simp [Transaction.put, habort, exceptBind_ok]
  · show (recordWrite (hash32 key) txn).committed = false
    rw [recordWrite_committed]
    exact hc
  · show localInsert key value (recordWrite (hash32 key) txn).local_storage =
      localInsert key value txn.local_storage
    rw [recordWrite_local_storage]

theorem delete_ok (hash32 : Key → Nat) (txn : TxnState) (key : Key)
    (hc : txn.committed = false) :
    ∃ txn1, Transaction.delete hash32 txn key = .ok txn1 ∧
      txn1.committed = false ∧
      txn1.local_storage = localInsert key [] txn.local_storage := by
  have habort := abortIfCommitted_of_live txn hc
  refine ⟨{ recordWrite (hash32 key) txn with
    local_storage := localInsert key []
      (recordWrite (hash32 key) txn).local_storage }, ?_, ?_, ?_⟩
  · simp [Transaction.delete, habort, exceptBind_ok]
  · show (recordWrite (hash32 key) txn).committed = false
    rw [recordWrite_committed]
    exact hc
  · show localInsert key [] (recordWrite (hash32 key) txn).local_storage =
      localInsert key [] txn.local_storage
    rw [recordWrite_local_storage]

/-- Claim C4: on an uncommitted transaction, `get` checks the local store
first — a locally present empty value yields no result, a non-empty value
is returned directly, and only a locally absent key delegates to the
engine's snapshot read; in particular a key written then deleted within
the same transaction reads back as no result. -/
theorem c4_get_local_first (hash32 : Key → Nat)
    (engineGet : Key → Option Bytes) (txn : TxnState) (key : Key)
    (hc : txn.committed = false) :
    (∀ v, localGet key txn.local_storage = some v → v = [] →
      Transaction.get hash32 engineGet txn key =
        .ok (none, recordRead (hash32 key) txn)) ∧
    (∀ v, localGet key txn.local_storage = some v → v ≠ [] →
      Transaction.get hash32 engineGet txn key =
        .ok (some v, recordRead (hash32 key) txn)) ∧
    (localGet key txn.local_storage = none →
      Transaction.get hash32 engineGet txn key =
        .ok (engineGet key, recordRead (hash32 key) txn)) ∧
    (∀ value, ∃ txn1 txn2,
      Transaction.put hash32 txn key value = .ok txn1 ∧
      Transaction.delete hash32 txn1 key = .ok txn2 ∧
      Transaction.get hash32 engineGet txn2 key =
        .ok (none, recordRead (hash32 key) txn2)) := by
  refine ⟨?_, ?_, ?_, ?_⟩
  · intro v hl hv
    subst hv
    have := get_local_case hash32 engineGet txn key [] hc hl
    simpa using this
  · intro v hl hv
    have := get_local_case hash32 engineGet txn key v hc hl
    rw [if_neg hv] at this
    exact this
  · intro hl
    exact get_engine_case hash32 engineGet txn key hc hl
  · intro value
    obtain ⟨txn1, hp, hc1, hs1⟩ := put_ok hash32 txn key value hc
    obtain ⟨txn2, hd, hc2, hs2⟩ := delete_ok hash32 txn1 key hc1
    refine ⟨txn1, txn2, hp, hd, ?_⟩
    have hl2 : localGet key txn2.local_storage = some [] := by
      rw [hs2]
      exact localGet_localInsert key [] txn1.local_storage
    have := get_local_case hash32 engineGet txn2 key [] hc2 hl2
    simpa using this

/-- Claim C4, witness: the theorem applied at a concrete uncommitted
transaction whose local store holds a tombstone at `[3]` (so `get [3]`
yields no result although the engine would return a value). -/
theorem c4_witness :
    ((⟨0, [([2], [9]), ([3], [])], false, none⟩ : TxnState).committed =
      false) ∧
    ((∀ v, localGet [3] [([2], [9]), ([3], [])] = some v → v = [] →
      Transaction.get (fun _ => 0) (fun _ => some [7])
        ⟨0, [([2], [9]), ([3], [])], false, none⟩ [3] =
        .ok (none, recordRead 0 ⟨0, [([2], [9]), ([3], [])], false, none⟩)) ∧
    (∀ v, localGet [3] [([2], [9]), ([3], [])] = some v → v ≠ [] →
      Transaction.get (fun _ => 0) (fun _ => some [7])
        ⟨0, [([2], [9]), ([3], [])], false, none⟩ [3] =
        .ok (some v, recordRead 0 ⟨0, [([2], [9]), ([3], [])], false, none⟩)) ∧
    (localGet [3] [([2], [9]), ([3], [])] = none →
      Transaction.get (fun _ => 0) (fun _ => some [7])
        ⟨0, [([2], [9]), ([3], [])], false, none⟩ [3] =
        .ok (some [7], recordRead 0 ⟨0, [([2], [9]), ([3], [])], false, none⟩)) ∧
    (∀ value, ∃ txn1 txn2,
      Transaction.put (fun _ => 0)
        ⟨0, [([2], [9]), ([3], [])], false, none⟩ [3] value = .ok txn1 ∧
      Transaction.delete (fun _ => 0) txn1 [3] = .ok txn2 ∧
      Transaction.get (fun _ => 0) (fun _ => some [7]) txn2 [3] =
        .ok (none, recordRead 0 txn2))) :=
  ⟨rfl, c4_get_local_first (fun _ => 0) (fun _ => some [7])
    ⟨0, [([2], [9]), ([3], [])], false, none⟩ [3] rfl⟩

/-! ## Claim C2 -/

/-- Claim C2, failing input: a transaction whose local store holds a
single tombstone at key `[1]` and an empty snapshot scan.
`Transaction::scan` builds the merged iterator and `TxnIterator::create`
wraps it without any tombstone skipping, so the iterator scan returns is
already positioned on the tombstone: it is valid and its current value
is empty — the tombstone is externally observable, contradicting the
claim at the initial position. (Advancing with `next` does skip it,
matching the in-code comment's intent that tombstones never be
visible.) -/
theorem c2_initial_tombstone_visible :
    Transaction.scan ⟨0, [([1], [])], false, none⟩ [] .Unbounded .Unbounded =
      .ok ⟨[([1], [])]⟩ ∧
    TxnIterator.is_valid ⟨[([1], [])]⟩ = true ∧
    TxnIterator.value ⟨[([1], [])]⟩ = [] ∧
    (TxnIterator.next (fun _ => 0) ⟨[([1], [])]⟩
      ⟨0, [([1], [])], false, none⟩).1.is_valid = false :=
  ⟨rfl, rfl, rfl, rfl⟩

/-! ## Claim C6 -/

/-- Claim C6, counterexample: the 8-byte file
`[0,0,0,0, 0,0,0,4]` (bloom offset 4, empty bloom section, meta offset 0,
empty meta section) passes all four reads, decodes an empty block-meta
sequence, and `open` then panics on `first().unwrap()` instead of
returning an error — the claim's "returns an error … whenever the
decoded block-meta sequence is empty" does not hold as stated. -/
theorem c6_counterexample :
    SsTable.open 0 [0, 0, 0, 0, 0, 0, 0, 4] = .error .panicked ∧
      OpenErr.panicked ≠ OpenErr.io := by
  constructor
  · rfl
  · decide

/-- Claim C6 (amended): `SsTable::open` returns an I/O error (no
partially constructed table) whenever any of the trailer, bloom or
block-meta reads would exceed file bounds; when the reads succeed and the
decoded block-meta sequence is empty (or its decoding hits a buffer
underflow), opening fails by panic rather than by a returned error; a
successfully opened table always has a non-empty block-meta sequence. -/
theorem c6_open_failures (id : Nat) (file : List Nat) :
    (bloomOffsetVal file = none → SsTable.open id file = .error .io) ∧
    (bloomBuffer file = none → SsTable.open id file = .error .io) ∧
    (metaOffsetVal file = none → SsTable.open id file = .error .io) ∧
    (metaBuffer file = none → SsTable.open id file = .error .io) ∧
    (∀ bbuf buf, bloomBuffer file = some bbuf → metaBuffer file = some buf →
      decode_block_meta buf = some [] →
      SsTable.open id file = .error .panicked) ∧
    (∀ bbuf buf, bloomBuffer file = some bbuf → metaBuffer file = some buf →
      decode_block_meta buf = none →
      SsTable.open id file = .error .panicked) ∧
    (∀ t, SsTable.open id file = .ok t → t.block_meta ≠ []) := by
  refine ⟨?_, ?_, ?_, ?_, ?_, ?_, ?_⟩
  · intro h
    rw [SsTable.open.eq_def, h]
  · intro h
    cases hbo : bloomOffsetVal file with
    | none => rw [SsTable.open.eq_def, hbo]
    | some bo => rw [SsTable.open.eq_def, hbo, h]
  · intro h
    cases hbo : bloomOffsetVal file with
    | none => rw [SsTable.open.eq_def, hbo]
    | some bo =>
      cases hbb : bloomBuffer file with
      | none => rw [SsTable.open.eq_def, hbo, hbb]
      | some bbuf => rw [SsTable.open.eq_def, hbo, hbb, h]
  · intro h
    cases hbo : bloomOffsetVal file with
    | none => rw [SsTable.open.eq_def, hbo]
    | some bo =>
      cases hbb : bloomBuffer file with
      | none => rw [SsTable.open.eq_def, hbo, hbb]
      | some bbuf =>
        cases hmo : metaOffsetVal file with
        | none => rw [SsTable.open.eq_def, hbo, hbb, hmo]
        | some mo => rw [SsTable.open.eq_def, hbo, hbb, hmo, h]
  · intro bbuf buf hbb hmb hdec
    obtain ⟨bo, hbo⟩ : ∃ bo, bloomOffsetVal file = some bo := by
      rcases hx : bloomOffsetVal file with - | bo
      · rw [metaBuffer, hx] at hmb
        exact absurd hmb (by simp)
      · exact ⟨bo, rfl⟩
    obtain ⟨mo, hmo⟩ : ∃ mo, metaOffsetVal file = some mo := by
      rcases hx : metaOffsetVal file with - | mo
      · rw [metaBuffer, hbo, hx] at hmb
        exact absurd hmb (by simp)
      · exact ⟨mo, rfl⟩
    rw [SsTable.open.eq_def, hbo, hbb, hmo, hmb]
    dsimp only
    simp [hdec]
  · intro bbuf buf hbb hmb hdec
    obtain ⟨bo, hbo⟩ : ∃ bo, bloomOffsetVal file = some bo := by
      rcases hx : bloomOffsetVal file with - | bo
      · rw [metaBuffer, hx] at hmb
        exact absurd hmb (by simp)
      · exact ⟨bo, rfl⟩
    obtain ⟨mo, hmo⟩ : ∃ mo, metaOffsetVal file = some mo := by
      rcases hx : metaOffsetVal file with - | mo
      · rw [metaBuffer, hbo, hx] at hmb
        exact absurd hmb (by simp)
      · exact ⟨mo, rfl⟩
    rw [SsTable.open.eq_def, hbo, hbb, hmo, hmb]
    dsimp only
    simp [hdec]
  · intro t hok
    rw [SsTable.open.eq_def] at hok
    rcases hbo : bloomOffsetVal file with - | bo
    · rw [hbo] at hok
      exact absurd hok (by simp)
    rw [hbo] at hok
    rcases hbb : bloomBuffer file with - | bbuf
    · rw [hbb] at hok
      exact absurd hok (by simp)
    rw [hbb] at hok
    rcases hmo : metaOffsetVal file with - | mo
    · rw [hmo] at hok
      exact absurd hok (by simp)
    rw [hmo] at hok
    rcases hmb : metaBuffer file with - | buf
    · rw [hmb] at hok
      exact absurd hok (by simp)
    rw [hmb] at hok
    dsimp only at hok
    rcases hdec : decode_block_meta buf with - | bm
    · rw [hdec] at hok
      exact absurd hok (by simp)
    rw [hdec] at hok
    dsimp only at hok
    cases bm with
    | nil => exact absurd hok (by simp)
    | cons m l =>
      rw [List.head?_cons] at hok
      cases hlast : (m :: l).getLast? with
      | none => exact absurd hlast (by simp)
      | some mN =>
        rw [hlast] at hok
        dsimp only at hok
        have ht := Except.ok.inj hok
        rw [← ht]
        simp

/-- Claim C6, witness: the amended theorem's panic clause applied at the
concrete 8-byte file with an empty meta section, and its success clause
at nothing (the failure facts are checked by evaluation). -/
theorem c6_witness :
    bloomBuffer [0, 0, 0, 0, 0, 0, 0, 4] = some [] ∧
    metaBuffer [0, 0, 0, 0, 0, 0, 0, 4] = some [] ∧
    decode_block_meta [] = some [] ∧
    SsTable.open 0 [0, 0, 0, 0, 0, 0, 0, 4] = .error .panicked :=
  ⟨rfl, rfl, rfl,
    (c6_open_failures 0 [0, 0, 0, 0, 0, 0, 0, 4]).2.2.2.2.1 [] [] rfl rfl
      rfl⟩

end MiniLsm
